import Mathlib

/-!
Verification development for the `diskcache_rs` persistent key-value cache
engine.  The storage engine itself (the Rust core behind `PyCache`) is not
part of the Python sources; every definition below carrying a doc comment
starting with `Modelled from the spec:` is a shallow embedding built from
the specification's own words (spec.md sections 3, 4.6, 4.9, 4.10 and 7),
exercised by the Python tests that ship with the repository.

Byte sequences are `List Nat` (each element a byte value), keys are
`String`, and wall-clock time is an explicit `Nat` parameter `now`.
-/

set_option autoImplicit false

namespace DCache

/-- Modelled from the spec: the error kinds of section 7 that the claims
mention (`AlreadyPresent`, `TypeMismatch`; `NotFound` is an absent value). -/
inductive Err where
  | notFound
  | alreadyPresent
  | typeMismatch
  deriving DecidableEq, Repr

/-- Modelled from the spec: the per-entry record of section 3 (value bytes,
stored size, timestamps, optional absolute expiry deadline, tags, access
count).  The `fingerprint` is derived from the key, not stored. -/
structure Entry where
  value : List Nat
  size : Nat
  created_at : Nat
  last_accessed_at : Nat
  expires_at : Option Nat
  tags : List String
  access_count : Nat
  deriving DecidableEq, Repr

/-- Modelled from the spec: an entry is live unless its `expires_at`
deadline is present and in the past (section 3: "if present and in the
past the entry is logically absent"). -/
def Entry.live (e : Entry) (now : Nat) : Bool :=
  match e.expires_at with
  | none => true
  | some t => decide (now ≤ t)

/-- Modelled from the spec: the 64-bit non-cryptographic key hash used for
shard selection and eviction tie-breaks (section 4.2), embodied as FNV-1a. -/
def fingerprint (k : String) : Nat :=
  k.data.foldl (fun h c => ((h ^^^ c.toNat) * 1099511628211) % 2 ^ 64)
    14695981039346656037

/-- Modelled from the spec: a core instance's state — the configured bounds
(`max_size`, `max_entries`) and the index map from keys to entries,
represented as an association list. -/
structure CoreState where
  maxSize : Nat
  maxEntries : Nat
  entries : List (String × Entry)
  deriving DecidableEq, Repr

/-- Modelled from the spec: a fresh core instance with no entries. -/
def emptyState (maxSize maxEntries : Nat) : CoreState :=
  { maxSize := maxSize, maxEntries := maxEntries, entries := [] }

/-- First-match lookup in an association list keyed by strings. -/
def alookup {α : Type} (k : String) : List (String × α) → Option α
  | [] => none
  | (k', v) :: rest => if k' = k then some v else alookup k rest

/-- Remove every binding of a key from an association list. -/
def removeKey {α : Type} (k : String) (l : List (String × α)) :
    List (String × α) :=
  l.filter (fun p => p.1 ≠ k)

/-- Total stored bytes over a list of entries. -/
def totalSize (l : List (String × Entry)) : Nat :=
  (l.map (fun p => p.2.size)).sum

/-- Modelled from the spec: LRU victim ordering of section 4.6 — oldest
`last_accessed_at` first, ties broken by lowest fingerprint. -/
def evictBefore (a b : String × Entry) : Bool :=
  decide (a.2.last_accessed_at < b.2.last_accessed_at) ||
    (decide (a.2.last_accessed_at = b.2.last_accessed_at) &&
      decide (fingerprint a.1 < fingerprint b.1))

/-- Modelled from the spec: select the eviction victim among a non-empty
entry list by the policy ordering (LRU, the default). -/
def victimOf (p : String × Entry) (rest : List (String × Entry)) :
    String × Entry :=
  rest.foldl (fun best q => if evictBefore q best then q else best) p

/-- A state is over its limits when the stored bytes exceed `max_size` or
the entry count exceeds `max_entries`. -/
def overLimit (s : CoreState) : Bool :=
  decide (s.maxSize < totalSize s.entries) ||
    decide (s.maxEntries < s.entries.length)

/-- Modelled from the spec: the eviction engine of section 4.6 — delete
victims in policy order until both bounds are satisfied.  `fuel` bounds the
iteration; callers pass the entry count. -/
def evictLoop : Nat → CoreState → CoreState
  | 0, s => s
  | fuel + 1, s =>
    if overLimit s then
      match s.entries with
      | [] => s
      | p :: rest =>
        evictLoop fuel { s with entries := removeKey (victimOf p rest).1 s.entries }
    else s

/-- Run the eviction engine to completion. -/
def runEvict (s : CoreState) : CoreState :=
  evictLoop s.entries.length s

/-- Modelled from the spec: a freshly written entry (section 3 lifecycle):
`size` is the byte length of the value, both timestamps are `now`. -/
def mkEntry (v : List Nat) (expire : Option Nat) (tags : List String)
    (now : Nat) : Entry :=
  { value := v, size := v.length, created_at := now, last_accessed_at := now,
    expires_at := expire, tags := tags, access_count := 0 }

/-- Insert or replace the entry for a key, then run synchronous eviction
(section 4.9 `set`: "triggers eviction if needed"). -/
def putEntry (k : String) (e : Entry) (s : CoreState) : CoreState :=
  runEvict { s with entries := (k, e) :: removeKey k s.entries }

/-- Modelled from the spec: `set(key, value, expire?, tags?)` of section
4.9 — write the value, record metadata, evict synchronously if a bound
would be crossed. -/
def coreSet (k : String) (v : List Nat) (expire : Option Nat)
    (tags : List String) (now : Nat) (s : CoreState) : CoreState :=
  putEntry k (mkEntry v expire tags now) s

/-- Bump access metadata on a successful read (section 4.9 `get`: "updates
`last_accessed_at` via a TOUCH record"). -/
def touchAccess (e : Entry) (now : Nat) : Entry :=
  { e with last_accessed_at := now, access_count := e.access_count + 1 }

/-- Modelled from the spec: `get(key)` of section 4.9 — return the live
value and refresh its access metadata; an expired entry is deleted and
absent is returned. -/
def coreGet (k : String) (now : Nat) (s : CoreState) :
    Option (List Nat) × CoreState :=
  match alookup k s.entries with
  | none => (none, s)
  | some e =>
    if e.live now then
      (some e.value,
        { s with entries := (k, touchAccess e now) :: removeKey k s.entries })
    else
      (none, { s with entries := removeKey k s.entries })

/-- Modelled from the spec: `delete(key) → bool` — true iff a live entry
was present and removed. -/
def coreDelete (k : String) (now : Nat) (s : CoreState) : Bool × CoreState :=
  match alookup k s.entries with
  | none => (false, s)
  | some e => (e.live now, { s with entries := removeKey k s.entries })

/-- Modelled from the spec: `pop(key) → value?` — atomic read-and-delete;
absent or expired keys yield an absent value. -/
def corePop (k : String) (now : Nat) (s : CoreState) :
    Option (List Nat) × CoreState :=
  match alookup k s.entries with
  | none => (none, s)
  | some e =>
    if e.live now then
      (some e.value, { s with entries := removeKey k s.entries })
    else
      (none, { s with entries := removeKey k s.entries })

/-- Modelled from the spec: `touch(key, expire?) → bool` — update
`expires_at` (clearing it when `expire` is absent); false when the key is
not live. -/
def coreTouch (k : String) (expire : Option Nat) (now : Nat)
    (s : CoreState) : Bool × CoreState :=
  match alookup k s.entries with
  | none => (false, s)
  | some e =>
    if e.live now then
      (true,
        { s with entries :=
            (k, { e with expires_at := expire }) :: removeKey k s.entries })
    else
      (false, { s with entries := removeKey k s.entries })

/-- Modelled from the spec: `add(key, value, …)` — as `set`, but fails
with `AlreadyPresent` when a live entry exists, leaving state unchanged. -/
def coreAdd (k : String) (v : List Nat) (expire : Option Nat)
    (tags : List String) (now : Nat) (s : CoreState) :
    Except Err Unit × CoreState :=
  match alookup k s.entries with
  | some e =>
    if e.live now then
      (Except.error Err.alreadyPresent, s)
    else
      (Except.ok (), coreSet k v expire tags now s)
  | none => (Except.ok (), coreSet k v expire tags now s)

/-- Little-endian digits of a number, fixed width. -/
def leBytes : Nat → Nat → List Nat
  | 0, _ => []
  | w + 1, n => (n % 256) :: leBytes w (n / 256)

/-- Value of a little-endian byte list. -/
def leVal : List Nat → Nat
  | [] => 0
  | b :: bs => b % 256 + 256 * leVal bs

/-- Modelled from the spec: decode a stored 8-byte payload as a signed
64-bit little-endian integer (section 4.9 `incr`). -/
def decodeI64 (bs : List Nat) : Int :=
  let n := leVal bs
  if n < 2 ^ 63 then (n : Int) else (n : Int) - 2 ^ 64

/-- Modelled from the spec: canonical little-endian encoding of a signed
64-bit integer. -/
def encodeI64 (x : Int) : List Nat :=
  leBytes 8 (Int.toNat (x % (2 ^ 64 : Int)))

/-- Modelled from the spec: `incr(key, delta)` of section 4.9 — read,
reinterpret as signed 64-bit little-endian, add, store; an absent (or
expired, hence logically absent) key is treated as 0 and created; a live
payload that is not exactly 8 bytes fails with `TypeMismatch`. -/
def coreIncr (k : String) (delta : Int) (now : Nat) (s : CoreState) :
    Except Err Int × CoreState :=
  match alookup k s.entries with
  | some e =>
    if e.live now then
      if e.value.length = 8 then
        let stored := encodeI64 (decodeI64 e.value + delta)
        (Except.ok (decodeI64 stored),
          putEntry k
            { e with value := stored, size := stored.length,
                     last_accessed_at := now } s)
      else
        (Except.error Err.typeMismatch, s)
    else
      (Except.ok (decodeI64 (encodeI64 delta)),
        coreSet k (encodeI64 delta) none [] now s)
  | none =>
    (Except.ok (decodeI64 (encodeI64 delta)),
      coreSet k (encodeI64 delta) none [] now s)

/-- Modelled from the spec: `decr` is `incr` with a negated delta. -/
def coreDecr (k : String) (delta : Int) (now : Nat) (s : CoreState) :
    Except Err Int × CoreState :=
  coreIncr k (-delta) now s

/-- Modelled from the spec: `clear() → count` — remove every entry and
return the count removed. -/
def coreClear (s : CoreState) : Nat × CoreState :=
  (s.entries.length, { s with entries := [] })

/-- The live entries of a state at a given time. -/
def liveEntries (now : Nat) (s : CoreState) : List (String × Entry) :=
  s.entries.filter (fun p => p.2.live now)

/-- Modelled from the spec: `scan()` — the live keys. -/
def coreScan (now : Nat) (s : CoreState) : List String :=
  (liveEntries now s).map (fun p => p.1)

/-- Modelled from the spec: `volume() → bytes` — aggregate stored size of
live entries. -/
def coreVolume (now : Nat) (s : CoreState) : Nat :=
  totalSize (liveEntries now s)

/-! ### Basic association-list lemmas -/

theorem alookup_mem {α : Type} {k : String} {v : α} :
    ∀ {l : List (String × α)}, alookup k l = some v → (k, v) ∈ l := by
  intro l
  induction l with
  | nil => intro h; simp [alookup] at h
  | cons p rest ih =>
    obtain ⟨a, b⟩ := p
    intro h
    simp only [alookup] at h
    by_cases hk : a = k
    · rw [if_pos hk] at h
      cases h
      subst hk
      exact List.mem_cons_self _ _
    · rw [if_neg hk] at h
      exact List.mem_cons_of_mem _ (ih h)

theorem mem_removeKey {α : Type} {k : String} {p : String × α}
    {l : List (String × α)} (h : p ∈ removeKey k l) : p ∈ l ∧ p.1 ≠ k := by
  unfold removeKey at h
  have := List.mem_filter.mp h
  exact ⟨this.1, by simpa using this.2⟩

theorem alookup_removeKey_self {α : Type} (k : String)
    (l : List (String × α)) : alookup k (removeKey k l) = none := by
  induction l with
  | nil => rfl
  | cons p rest ih =>
    by_cases hk : p.1 = k
    · simpa [removeKey, List.filter, hk] using ih
    · simpa [removeKey, List.filter, hk, alookup] using ih

theorem alookup_cons_self {α : Type} (k : String) (v : α)
    (l : List (String × α)) : alookup k ((k, v) :: l) = some v := by
  simp [alookup]

theorem alookup_ne {α : Type} {k k' : String} (v : α)
    (l : List (String × α)) (h : k ≠ k') :
    alookup k' ((k, v) :: l) = alookup k' l := by
  simp [alookup, h]

theorem mem_upsert {α : Type} {q : String × α} {k : String} {v : α}
    {l : List (String × α)} (h : q ∈ (k, v) :: removeKey k l) :
    q = (k, v) ∨ (q ∈ l ∧ q.1 ≠ k) := by
  rcases List.mem_cons.mp h with h1 | h2
  · exact Or.inl h1
  · exact Or.inr (mem_removeKey h2)

theorem removeKey_le {α : Type} (k : String) (l : List (String × α)) :
    (removeKey k l).length ≤ l.length :=
  List.length_filter_le _ _

theorem removeKey_length_lt {α : Type} {k : String} {v : α}
    {l : List (String × α)} (h : (k, v) ∈ l) :
    (removeKey k l).length < l.length := by
  induction l with
  | nil => simp at h
  | cons p rest ih =>
    rcases List.mem_cons.mp h with h1 | h2
    · subst h1
      have he : removeKey k ((k, v) :: rest) = removeKey k rest := by
        simp [removeKey]
      rw [he]
      have := removeKey_le k rest
      simp only [List.length_cons]
      omega
    · by_cases hk : p.1 = k
      · have he : removeKey k (p :: rest) = removeKey k rest := by
          simp [removeKey, hk]
        rw [he]
        have := removeKey_le k rest
        simp only [List.length_cons]
        omega
      · have he : removeKey k (p :: rest) = p :: removeKey k rest := by
          simp [removeKey, hk]
        rw [he]
        have := ih h2
        simp only [List.length_cons]
        omega

/-! ### Eviction-engine lemmas -/

theorem foldl_pick_mem (f : String × Entry → String × Entry → Bool) :
    ∀ (l : List (String × Entry)) (p : String × Entry),
      l.foldl (fun best q => if f q best then q else best) p ∈ p :: l := by
  intro l
  induction l with
  | nil => intro p; simp
  | cons r rest ih =>
    intro p
    simp only [List.foldl]
    by_cases hr : f r p
    · rw [if_pos hr]
      rcases List.mem_cons.mp (ih r) with h1 | h2
      · rw [h1]; simp
      · simp [h2]
    · rw [if_neg hr]
      rcases List.mem_cons.mp (ih p) with h1 | h2
      · rw [h1]; simp
      · simp [h2]

theorem victimOf_mem (p : String × Entry) (rest : List (String × Entry)) :
    victimOf p rest ∈ p :: rest :=
  foldl_pick_mem evictBefore rest p

theorem evictLoop_mem : ∀ (fuel : Nat) (s : CoreState)
    (q : String × Entry), q ∈ (evictLoop fuel s).entries → q ∈ s.entries := by
  intro fuel
  induction fuel with
  | zero => intro s q h; exact h
  | succ n ih =>
    intro s q h
    rw [evictLoop] at h
    split at h
    · split at h
      · exact h
      · exact (mem_removeKey (ih _ _ h)).1
    · exact h

theorem evictLoop_config : ∀ (fuel : Nat) (s : CoreState),
    (evictLoop fuel s).maxSize = s.maxSize ∧
      (evictLoop fuel s).maxEntries = s.maxEntries := by
  intro fuel
  induction fuel with
  | zero => intro s; exact ⟨rfl, rfl⟩
  | succ n ih =>
    intro s
    rw [evictLoop]
    split
    · split
      · exact ⟨rfl, rfl⟩
      · exact ih _
    · exact ⟨rfl, rfl⟩

theorem evictLoop_bounds : ∀ (fuel : Nat) (s : CoreState),
    s.entries.length ≤ fuel →
    totalSize (evictLoop fuel s).entries ≤ s.maxSize ∧
      (evictLoop fuel s).entries.length ≤ s.maxEntries := by
  intro fuel
  induction fuel with
  | zero =>
    intro s hlen
    have he : s.entries = [] := List.length_eq_zero.mp (Nat.le_zero.mp hlen)
    rw [evictLoop]
    rw [he]
    exact ⟨Nat.zero_le _, Nat.zero_le _⟩
  | succ n ih =>
    intro s hlen
    rw [evictLoop]
    split
    case isTrue ho =>
      split
      case _ he =>
        rw [he]
        exact ⟨Nat.zero_le _, Nat.zero_le _⟩
      case _ p rest he =>
        have hvm : victimOf p rest ∈ s.entries := by
          rw [he]; exact victimOf_mem p rest
        have hlt : (removeKey (victimOf p rest).1 s.entries).length <
            s.entries.length := by
          have hp : ((victimOf p rest).1, (victimOf p rest).2) ∈ s.entries := by
            simpa using hvm
          exact removeKey_length_lt hp
        have hfuel : (removeKey (victimOf p rest).1 s.entries).length ≤ n := by
          omega
        exact ih { s with entries := removeKey (victimOf p rest).1 s.entries }
          hfuel
    case isFalse ho =>
      unfold overLimit at ho
      simp only [Bool.or_eq_true, decide_eq_true_eq, not_or] at ho
      exact ⟨Nat.le_of_not_lt ho.1, Nat.le_of_not_lt ho.2⟩

theorem runEvict_bounds (s : CoreState) :
    totalSize (runEvict s).entries ≤ s.maxSize ∧
      (runEvict s).entries.length ≤ s.maxEntries :=
  evictLoop_bounds s.entries.length s (Nat.le_refl _)

theorem putEntry_bounds (k : String) (e : Entry) (s : CoreState) :
    totalSize (putEntry k e s).entries ≤ s.maxSize ∧
      (putEntry k e s).entries.length ≤ s.maxEntries :=
  runEvict_bounds _

theorem putEntry_mem {k : String} {e : Entry} {s : CoreState}
    {q : String × Entry} (h : q ∈ (putEntry k e s).entries) :
    q = (k, e) ∨ (q ∈ s.entries ∧ q.1 ≠ k) :=
  mem_upsert (evictLoop_mem _ _ _ h)

theorem putEntry_config (k : String) (e : Entry) (s : CoreState) :
    (putEntry k e s).maxSize = s.maxSize ∧
      (putEntry k e s).maxEntries = s.maxEntries :=
  evictLoop_config _ _

/-- A key's surviving entry after `putEntry` is the entry just written. -/
theorem putEntry_lookup {k : String} {e e' : Entry} {s : CoreState}
    (h : alookup k (putEntry k e s).entries = some e') : e' = e := by
  have hm := alookup_mem h
  rcases putEntry_mem hm with h1 | h2
  · cases h1; rfl
  · exact absurd rfl h2.2

/-! ### Read-path helpers -/

theorem coreGet_of_lookup_live {k : String} {e : Entry} {now : Nat}
    {s : CoreState} (h : alookup k s.entries = some e)
    (hl : e.live now = true) : (coreGet k now s).1 = some e.value := by
  simp [coreGet, h, hl]

/-- A key that survives a `set` (it was not chosen as an eviction victim)
reads back exactly the value just written, at any later time, for any tag
list and no expiry. -/
theorem set_get_roundtrip (k : String) (v : List Nat) (tags : List String)
    (now now' : Nat) (s : CoreState)
    (hsurv : alookup k (coreSet k v none tags now s).entries ≠ none) :
    (coreGet k now' (coreSet k v none tags now s)).1 = some v := by
  cases he : alookup k (coreSet k v none tags now s).entries with
  | none => exact absurd he hsurv
  | some e =>
    have heq : e = mkEntry v none tags now := putEntry_lookup he
    have hl : e.live now' = true := by rw [heq]; rfl
    rw [coreGet_of_lookup_live he hl, heq]
    rfl

theorem nodup_key_unique {α : Type} {l : List (String × α)}
    (h : (l.map Prod.fst).Nodup) {k : String} {a b : α}
    (ha : (k, a) ∈ l) (hb : (k, b) ∈ l) : a = b := by
  induction l with
  | nil => simp at ha
  | cons p rest ih =>
    rw [List.map_cons, List.nodup_cons] at h
    rcases List.mem_cons.mp ha with ha1 | ha2 <;>
      rcases List.mem_cons.mp hb with hb1 | hb2
    · exact (Prod.ext_iff.mp (ha1.trans hb1.symm)).2
    · exfalso
      have hk : k ∈ rest.map Prod.fst := List.mem_map_of_mem Prod.fst hb2
      rw [← ha1] at h
      exact h.1 hk
    · exfalso
      have hk : k ∈ rest.map Prod.fst := List.mem_map_of_mem Prod.fst ha2
      rw [← hb1] at h
      exact h.1 hk
    · exact ih h.2 ha2 hb2

/-! ### Aggregate-size helpers -/

theorem totalSize_filter_le (p : String × Entry → Bool)
    (l : List (String × Entry)) : totalSize (l.filter p) ≤ totalSize l := by
  induction l with
  | nil => simp [totalSize]
  | cons q rest ih =>
    rw [List.filter_cons]
    by_cases hq : p q
    · rw [if_pos hq]
      unfold totalSize at *
      simp only [List.map_cons, List.sum_cons]
      omega
    · rw [if_neg hq]
      unfold totalSize at *
      simp only [List.map_cons, List.sum_cons]
      omega

theorem volume_le_totalSize (now : Nat) (s : CoreState) :
    coreVolume now s ≤ totalSize s.entries :=
  totalSize_filter_le _ _

/-! ### Little-endian 64-bit integer encoding -/

theorem leVal_leBytes : ∀ (w n : Nat), leVal (leBytes w n) = n % 256 ^ w := by
  intro w
  induction w with
  | zero => intro n; simp [leBytes, leVal, Nat.mod_one]
  | succ m ih =>
    intro n
    rw [leBytes, leVal, ih]
    rw [Nat.mod_mod_of_dvd n dvd_rfl]
    rw [pow_succ']
    exact (Nat.mod_mul).symm

theorem decodeI64_encodeI64 {x : Int} (h1 : -(2 ^ 63) ≤ x)
    (h2 : x < 2 ^ 63) : decodeI64 (encodeI64 x) = x := by
  unfold decodeI64 encodeI64
  rw [leVal_leBytes]
  have h256 : (256 : Nat) ^ 8 = 2 ^ 64 := by norm_num
  rw [h256]
  have hn : Int.toNat (x % (2 ^ 64 : Int)) % 2 ^ 64 =
      Int.toNat (x % (2 ^ 64 : Int)) := by
    apply Nat.mod_eq_of_lt
    omega
  rw [hn]
  by_cases hc : Int.toNat (x % (2 ^ 64 : Int)) < 2 ^ 63
  · rw [if_pos hc]
    omega
  · rw [if_neg hc]
    omega

/-- A key has no live entry: either it is absent from the index, or its
entry has expired.  Such a key is logically absent (section 3). -/
def noLiveB (k : String) (now : Nat) (s : CoreState) : Bool :=
  match alookup k s.entries with
  | none => true
  | some e => !(e.live now)

/-- A demonstration state holding a non-integer (3-byte) payload under key
`n`. -/
def badPayloadState : CoreState :=
  { maxSize := 64, maxEntries := 8,
    entries := [("n", mkEntry [1, 2, 3] none [] 0)] }

/-- A demonstration state holding one entry under key `k` whose expiry
deadline 5 has passed at time 10. -/
def expiredDemoState : CoreState :=
  { maxSize := 100, maxEntries := 10,
    entries := [("k", mkEntry [1] (some 5) [] 0)] }

/-! ### Claim theorems -/

/-- C1: for every key `k` and byte-sequence value `v` (including the empty
sequence), after a successful `set(k, v)` with no intervening delete,
eviction or expiration of `k` (no expiry is set and `k` was not an
eviction victim of the synchronous eviction), a subsequent `get(k)` on the
same instance returns exactly `v`. -/
theorem set_then_get_returns_value (k : String) (v : List Nat)
    (now later : Nat) (s : CoreState)
    (hsurv : alookup k (coreSet k v none [] now s).entries ≠ none) :
    (coreGet k later (coreSet k v none [] now s)).1 = some v :=
  set_get_roundtrip k v [] now later s hsurv

/-- Witness for C1 at a concrete input, with the empty byte sequence. -/
theorem set_then_get_returns_value_witness :
    alookup "hello" (coreSet "hello" [] none [] 0
        (emptyState 1024 64)).entries ≠ none ∧
    (coreGet "hello" 5 (coreSet "hello" [] none [] 0
        (emptyState 1024 64))).1 = some [] :=
  ⟨by decide,
    set_then_get_returns_value "hello" [] 0 5 (emptyState 1024 64)
      (by decide)⟩

/-- C2: at the moment a write operation (`set`, `add`, `incr`) returns
success, the aggregate `size` over live entries does not exceed the
configured `max_size`; the synchronous eviction inside the write
establishes the bound. -/
theorem write_within_bounds (k : String) (v : List Nat)
    (expire : Option Nat) (tags : List String) (delta : Int) (now : Nat)
    (s : CoreState) :
    coreVolume now (coreSet k v expire tags now s) ≤ s.maxSize ∧
    ((coreAdd k v expire tags now s).1 = Except.ok () →
      coreVolume now (coreAdd k v expire tags now s).2 ≤ s.maxSize) ∧
    ((∃ r, (coreIncr k delta now s).1 = Except.ok r) →
      coreVolume now (coreIncr k delta now s).2 ≤ s.maxSize) := by
  have hset : coreVolume now (coreSet k v expire tags now s) ≤ s.maxSize :=
    le_trans (volume_le_totalSize _ _)
      (putEntry_bounds k (mkEntry v expire tags now) s).1
  refine ⟨hset, ?_, ?_⟩
  · intro hok
    cases ha : alookup k s.entries with
    | none =>
      simp only [coreAdd, ha]
      exact hset
    | some e =>
      by_cases hl : e.live now
      · exfalso
        simp [coreAdd, ha, hl] at hok
      · simp only [coreAdd, ha, if_neg hl]
        exact hset
  · intro hok
    cases ha : alookup k s.entries with
    | none =>
      simp only [coreIncr, ha]
      exact le_trans (volume_le_totalSize _ _)
        (putEntry_bounds k (mkEntry (encodeI64 delta) none [] now) s).1
    | some e =>
      by_cases hl : e.live now
      · by_cases hlen : e.value.length = 8
        · simp only [coreIncr, ha, if_pos hl, if_pos hlen]
          exact le_trans (volume_le_totalSize _ _) (putEntry_bounds _ _ _).1
        · exfalso
          obtain ⟨r, hr⟩ := hok
          simp [coreIncr, ha, hl, hlen] at hr
      · simp only [coreIncr, ha, if_neg hl]
        exact le_trans (volume_le_totalSize _ _)
          (putEntry_bounds k (mkEntry (encodeI64 delta) none [] now) s).1

/-- Witness for C2 at concrete inputs: a set that overflows the bound and
is evicted, a successful add, and a successful incr. -/
theorem write_within_bounds_witness :
    coreVolume 0 (coreSet "a" [1, 2, 3] none [] 0 (emptyState 2 8)) ≤ 2 ∧
    coreVolume 0 (coreAdd "b" [7] none [] 0 (emptyState 16 8)).2 ≤ 16 ∧
    coreVolume 0 (coreIncr "c" 5 0 (emptyState 64 8)).2 ≤ 64 :=
  ⟨(write_within_bounds "a" [1, 2, 3] none [] 1 0 (emptyState 2 8)).1,
    (write_within_bounds "b" [7] none [] 1 0 (emptyState 16 8)).2.1 rfl,
    (write_within_bounds "c" [0] none [] 5 0 (emptyState 64 8)).2.2
      ⟨5, rfl⟩⟩

/-- C4: `add(k, v)` behaves as `set` when no live entry for `k` exists and
fails with `AlreadyPresent` when one does, leaving the stored value in
place: after `add(k, v1)` then `add(k, v2)` (with `v1`'s entry surviving
eviction), `get(k)` returns `v1`. -/
theorem add_semantics (k : String) (v1 v2 : List Nat)
    (now later getT : Nat) (s : CoreState)
    (hfree : noLiveB k now s = true)
    (hsurv : alookup k (coreAdd k v1 none [] now s).2.entries ≠ none) :
    coreAdd k v1 none [] now s =
      (Except.ok (), coreSet k v1 none [] now s) ∧
    coreAdd k v2 none [] later (coreAdd k v1 none [] now s).2 =
      (Except.error Err.alreadyPresent, (coreAdd k v1 none [] now s).2) ∧
    (coreGet k getT (coreAdd k v1 none [] now s).2).1 = some v1 := by
  have hpart1 : coreAdd k v1 none [] now s =
      (Except.ok (), coreSet k v1 none [] now s) := by
    unfold noLiveB at hfree
    cases ha : alookup k s.entries with
    | none => simp [coreAdd, ha]
    | some e =>
      simp only [ha] at hfree
      have hdead : e.live now = false := by simpa using hfree
      simp [coreAdd, ha, hdead]
  have hs1 : (coreAdd k v1 none [] now s).2 = coreSet k v1 none [] now s := by
    rw [hpart1]
  cases he : alookup k (coreAdd k v1 none [] now s).2.entries with
  | none => exact absurd he hsurv
  | some e1 =>
    have he' : alookup k (coreSet k v1 none [] now s).entries = some e1 := by
      rw [← hs1]
      exact he
    have heq : e1 = mkEntry v1 none [] now := putEntry_lookup he'
    have hlive2 : e1.live later = true := by rw [heq]; rfl
    have hlive3 : e1.live getT = true := by rw [heq]; rfl
    refine ⟨hpart1, ?_, ?_⟩
    · rw [hs1]
      simp [coreAdd, he', hlive2]
    · rw [coreGet_of_lookup_live he hlive3, heq]
      rfl

/-- Witness for C4 at a concrete input. -/
theorem add_semantics_witness :
    noLiveB "counter" 0 (emptyState 1024 8) = true ∧
    coreAdd "counter" [1] none [] 1 ((coreAdd "counter" [0] none [] 0
        (emptyState 1024 8)).2) =
      (Except.error Err.alreadyPresent,
        (coreAdd "counter" [0] none [] 0 (emptyState 1024 8)).2) ∧
    (coreGet "counter" 2 ((coreAdd "counter" [0] none [] 0
        (emptyState 1024 8)).2)).1 = some [0] :=
  ⟨by decide,
    (add_semantics "counter" [0] [1] 0 1 2 (emptyState 1024 8)
      (by decide) (by decide)).2.1,
    (add_semantics "counter" [0] [1] 0 1 2 (emptyState 1024 8)
      (by decide) (by decide)).2.2⟩

/-- C5: `incr(k, delta)` interprets stored values as signed 64-bit
little-endian integers: an absent key is treated as 0, the entry is
created through the normal set path, and `delta` is returned; a live
payload that is not exactly 8 bytes fails with `TypeMismatch`, leaving the
state unchanged. -/
theorem incr_semantics (k : String) (delta : Int) (now : Nat)
    (s : CoreState) (hd1 : -(2 ^ 63) ≤ delta) (hd2 : delta < 2 ^ 63) :
    (alookup k s.entries = none →
      coreIncr k delta now s =
        (Except.ok delta, coreSet k (encodeI64 delta) none [] now s)) ∧
    (∀ e, alookup k s.entries = some e → e.live now = true →
      e.value.length ≠ 8 →
      coreIncr k delta now s = (Except.error Err.typeMismatch, s)) := by
  constructor
  · intro ha
    simp [coreIncr, ha, decodeI64_encodeI64 hd1 hd2]
  · intro e ha hlive hlen
    simp [coreIncr, ha, hlive, hlen]

/-- Witness for C5 at concrete inputs: creation from absent with delta 5,
and `TypeMismatch` on a 3-byte payload. -/
theorem incr_semantics_witness :
    coreIncr "n" 5 0 (emptyState 64 8) =
      (Except.ok 5, coreSet "n" (encodeI64 5) none [] 0 (emptyState 64 8)) ∧
    coreIncr "n" 5 3 badPayloadState =
      (Except.error Err.typeMismatch, badPayloadState) :=
  ⟨(incr_semantics "n" 5 0 (emptyState 64 8) (by decide) (by decide)).1
      (by decide),
    (incr_semantics "n" 5 3 badPayloadState (by decide) (by decide)).2
      (mkEntry [1, 2, 3] none [] 0) (by decide) (by decide) (by decide)⟩

/-- C6: `clear()` removes every entry and returns the count removed; after
it, `scan()` yields no keys and `volume()` is 0. -/
theorem clear_semantics (now : Nat) (s : CoreState) :
    (coreClear s).1 = s.entries.length ∧
    coreScan now (coreClear s).2 = [] ∧
    coreVolume now (coreClear s).2 = 0 :=
  ⟨rfl, rfl, rfl⟩

/-- C7: an entry whose `expires_at` lies in the past is logically absent:
`get` returns absent on first access after the deadline (and physically
removes the entry), and `scan()` does not yield the key. -/
theorem expired_entry_absent (k : String) (e : Entry) (t now : Nat)
    (s : CoreState) (hwf : (s.entries.map Prod.fst).Nodup)
    (hl : alookup k s.entries = some e) (hexp : e.expires_at = some t)
    (ht : t < now) :
    (coreGet k now s).1 = none ∧
    alookup k (coreGet k now s).2.entries = none ∧
    k ∉ coreScan now s := by
  have hdead : e.live now = false := by
    simp [Entry.live, hexp, decide_eq_false_iff_not]
    omega
  refine ⟨?_, ?_, ?_⟩
  · simp [coreGet, hl, hdead]
  · simp [coreGet, hl, hdead, alookup_removeKey_self]
  · intro hk
    unfold coreScan liveEntries at hk
    rcases List.mem_map.mp hk with ⟨p, hp, hpk⟩
    have hpm := List.mem_filter.mp hp
    have hpmem : (k, p.2) ∈ s.entries := by
      rw [← hpk]
      simpa using hpm.1
    have hpe : p.2 = e := nodup_key_unique hwf hpmem (alookup_mem hl)
    have : p.2.live now = true := by simpa using hpm.2
    rw [hpe, hdead] at this
    exact Bool.false_ne_true this

/-- Witness for C7 at a concrete input. -/
theorem expired_entry_absent_witness :
    (coreGet "k" 10 expiredDemoState).1 = none ∧
    alookup "k" (coreGet "k" 10 expiredDemoState).2.entries = none ∧
    "k" ∉ coreScan 10 expiredDemoState :=
  expired_entry_absent "k" (mkEntry [1] (some 5) [] 0) 5 10
    expiredDemoState (by decide) (by decide) (by decide) (by decide)

/-- C8: `get`, `pop` and `touch` on an absent or expired key return an
absent-value result (`none` / `false`) rather than an error. -/
theorem absent_value_results (k : String) (expire : Option Nat) (now : Nat)
    (s : CoreState) (habs : noLiveB k now s = true) :
    (coreGet k now s).1 = none ∧ (corePop k now s).1 = none ∧
    (coreTouch k expire now s).1 = false := by
  unfold noLiveB at habs
  cases hl : alookup k s.entries with
  | none =>
    exact ⟨by simp [coreGet, hl], by simp [corePop, hl],
      by simp [coreTouch, hl]⟩
  | some e =>
    simp only [hl] at habs
    have hdead : e.live now = false := by simpa using habs
    exact ⟨by simp [coreGet, hl, hdead], by simp [corePop, hl, hdead],
      by simp [coreTouch, hl, hdead]⟩

/-- Witness for C8 at concrete inputs: an absent key and an expired key. -/
theorem absent_value_results_witness :
    ((coreGet "missing" 3 (emptyState 8 8)).1 = none ∧
      (corePop "missing" 3 (emptyState 8 8)).1 = none ∧
      (coreTouch "missing" (some 9) 3 (emptyState 8 8)).1 = false) ∧
    (coreGet "k" 10 expiredDemoState).1 = none :=
  ⟨absent_value_results "missing" (some 9) 3 (emptyState 8 8) (by decide),
    (absent_value_results "k" none 10 expiredDemoState (by decide)).1⟩

/-- C10: setting an entry with a non-empty tags list does not change
read behavior: after `set(key, value, tags)` a subsequent `get(key)`
returns exactly `value`, the same result as a `set` without tags. -/
theorem set_with_tags_frame (k : String) (v : List Nat)
    (tags : List String) (now later : Nat) (s : CoreState)
    (h1 : alookup k (coreSet k v none tags now s).entries ≠ none)
    (h2 : alookup k (coreSet k v none [] now s).entries ≠ none) :
    (coreGet k later (coreSet k v none tags now s)).1 = some v ∧
    (coreGet k later (coreSet k v none tags now s)).1 =
      (coreGet k later (coreSet k v none [] now s)).1 := by
  have ha := set_get_roundtrip k v tags now later s h1
  have hb := set_get_roundtrip k v [] now later s h2
  exact ⟨ha, ha.trans hb.symm⟩

/-- Witness for C10 at a concrete input with two tags. -/
theorem set_with_tags_frame_witness :
    (coreGet "tagged" 1 (coreSet "tagged" [9, 9] none ["tag1", "tag2"] 0
        (emptyState 256 16))).1 = some [9, 9] ∧
    (coreGet "tagged" 1 (coreSet "tagged" [9, 9] none ["tag1", "tag2"] 0
        (emptyState 256 16))).1 =
      (coreGet "tagged" 1 (coreSet "tagged" [9, 9] none [] 0
        (emptyState 256 16))).1 :=
  set_with_tags_frame "tagged" [9, 9] ["tag1", "tag2"] 0 1
    (emptyState 256 16) (by decide) (by decide)

/-! ### Legacy-store migration (section 4.10) -/

/-- Modelled from the spec: the files of a core directory that the
legacy-store migrator observes (section 4.10): the optional legacy
`cache.db` rows, the optional renamed `cache.db.migrated`, the optional
`legacy_backup/` copy, and the optional new-layout index files
(`index.snapshot` / `index.log`), identified with the core state they
encode. -/
structure Dir where
  legacyDb : Option (List (String × List Nat))
  migratedDb : Option (List (String × List Nat))
  backup : Option (List (String × List Nat))
  indexFiles : Option CoreState
  deriving DecidableEq, Repr

/-- Modelled from the spec: replay legacy key/value rows through the
normal `set` path into the new layout. -/
def importRows (now : Nat) (rows : List (String × List Nat))
    (s : CoreState) : CoreState :=
  rows.foldl (fun st kv => coreSet kv.1 kv.2 none [] now st) s

/-- Modelled from the spec: open of a core directory (section 4.10): when
a legacy `cache.db` exists and no `index.snapshot` / `index.log` is
present, the migrator imports every row through the normal set path,
renames the legacy file to `cache.db.migrated` and copies it into
`legacy_backup/`; when index files exist, no migration runs. -/
def openCore (maxSize maxEntries now : Nat) (d : Dir) : Dir × CoreState :=
  match d.indexFiles with
  | some s => (d, s)
  | none =>
    match d.legacyDb with
    | some rows =>
      let s := importRows now rows (emptyState maxSize maxEntries)
      ({ legacyDb := none, migratedDb := some rows, backup := some rows,
         indexFiles := some s }, s)
    | none =>
      let s := emptyState maxSize maxEntries
      ({ d with indexFiles := some s }, s)

/-- A demonstration directory holding a legacy `cache.db` with two rows
and no new-layout index. -/
def legacyDemoDir : Dir :=
  { legacyDb := some [("a", [1]), ("b", [2])], migratedDb := none,
    backup := none, indexFiles := none }

/-- C9: opening a directory with a legacy `cache.db` and no
`index.snapshot`/`index.log` imports every legacy row through the normal
set path, renames the legacy file to `cache.db.migrated`, copies it into
the backup subdirectory, and a second open of the resulting directory does
not re-migrate. -/
theorem migration_semantics (maxSize maxEntries now now2 : Nat) (d : Dir)
    (rows : List (String × List Nat)) (hleg : d.legacyDb = some rows)
    (hidx : d.indexFiles = none) :
    (openCore maxSize maxEntries now d).2 =
      importRows now rows (emptyState maxSize maxEntries) ∧
    (openCore maxSize maxEntries now d).1.migratedDb = some rows ∧
    (openCore maxSize maxEntries now d).1.backup = some rows ∧
    (openCore maxSize maxEntries now d).1.legacyDb = none ∧
    openCore maxSize maxEntries now2 (openCore maxSize maxEntries now d).1 =
      ((openCore maxSize maxEntries now d).1,
        (openCore maxSize maxEntries now d).2) := by
  simp [openCore, hleg, hidx]

/-- Witness for C9 at a concrete input: both migrated rows are readable
through `get`, the rename and backup artifacts exist, and re-opening
changes nothing. -/
theorem migration_semantics_witness :
    (openCore 1024 100 0 legacyDemoDir).1.migratedDb =
      some [("a", [1]), ("b", [2])] ∧
    (openCore 1024 100 0 legacyDemoDir).1.backup =
      some [("a", [1]), ("b", [2])] ∧
    (coreGet "a" 1 (openCore 1024 100 0 legacyDemoDir).2).1 = some [1] ∧
    (coreGet "b" 1 (openCore 1024 100 0 legacyDemoDir).2).1 = some [2] ∧
    openCore 1024 100 7 (openCore 1024 100 0 legacyDemoDir).1 =
      ((openCore 1024 100 0 legacyDemoDir).1,
        (openCore 1024 100 0 legacyDemoDir).2) :=
  ⟨(migration_semantics 1024 100 0 7 legacyDemoDir _ rfl rfl).2.1,
    (migration_semantics 1024 100 0 7 legacyDemoDir _ rfl rfl).2.2.1,
    by decide, by decide,
    (migration_semantics 1024 100 0 7 legacyDemoDir _ rfl rfl).2.2.2.2⟩

/-! ### Memory tier (section 4.5) and its transparency -/

/-- Modelled from the spec: the facade operations of section 4.9 that the
memory-tier transparency statement ranges over. -/
inductive Op where
  | get (k : String)
  | set (k : String) (v : List Nat) (expire : Option Nat) (tags : List String)
  | add (k : String) (v : List Nat)
  | del (k : String)
  | pop (k : String)
  | incr (k : String) (delta : Int)
  | touch (k : String) (expire : Option Nat)
  | clear
  | volume
  | scan
  deriving DecidableEq, Repr

/-- Observable result of one facade operation. -/
inductive Out where
  | oval : Option (List Nat) → Out
  | obool : Bool → Out
  | ores : Except Err Unit → Out
  | oint : Except Err Int → Out
  | onat : Nat → Out
  | okeys : List String → Out

/-- Modelled from the spec: the disk-only semantics of one facade
operation — the memory tier disabled (section 4.5). -/
def runCore : Op → Nat → CoreState → Out × CoreState
  | .get k, now, s => (Out.oval (coreGet k now s).1, (coreGet k now s).2)
  | .set k v e tg, now, s => (Out.ores (Except.ok ()), coreSet k v e tg now s)
  | .add k v, now, s =>
    (Out.ores (coreAdd k v none [] now s).1, (coreAdd k v none [] now s).2)
  | .del k, now, s => (Out.obool (coreDelete k now s).1, (coreDelete k now s).2)
  | .pop k, now, s => (Out.oval (corePop k now s).1, (corePop k now s).2)
  | .incr k d, now, s =>
    (Out.oint (coreIncr k d now s).1, (coreIncr k d now s).2)
  | .touch k e, now, s =>
    (Out.obool (coreTouch k e now s).1, (coreTouch k e now s).2)
  | .clear, _, s => (Out.onat (coreClear s).1, (coreClear s).2)
  | .volume, now, s => (Out.onat (coreVolume now s), s)
  | .scan, now, s => (Out.okeys (coreScan now s), s)

/-- Modelled from the spec: facade state with the process-private memory
tier in front of the core (section 4.5): cached key/value copies of
recently used entries. -/
structure FState where
  core : CoreState
  mem : List (String × List Nat)

/-- Modelled from the spec: the facade semantics with the memory tier
(section 4.5): `get` consults the tier first but still consults the index
for expiration — a hit skips the blob read and returns the cached bytes; a
miss populates the tier; `set` updates the tier after the core write;
`delete`/`pop`/`incr` invalidate the cached copy; `clear` empties the
tier. -/
def runFacade : Op → Nat → FState → Out × FState
  | .get k, now, f =>
    match alookup k f.mem with
    | some v =>
      match alookup k f.core.entries with
      | some e =>
        if e.live now then
          (Out.oval (some v),
            { core := { f.core with entries :=
                (k, touchAccess e now) :: removeKey k f.core.entries },
              mem := f.mem })
        else
          (Out.oval none,
            { core := { f.core with entries := removeKey k f.core.entries },
              mem := removeKey k f.mem })
      | none => (Out.oval none, { core := f.core, mem := removeKey k f.mem })
    | none =>
      match coreGet k now f.core with
      | (some v, c) =>
        (Out.oval (some v), { core := c, mem := (k, v) :: f.mem })
      | (none, c) => (Out.oval none, { core := c, mem := f.mem })
  | .set k v e tg, now, f =>
    (Out.ores (Except.ok ()),
      { core := coreSet k v e tg now f.core,
        mem := (k, v) :: removeKey k f.mem })
  | .add k v, now, f =>
    (Out.ores (coreAdd k v none [] now f.core).1,
      { core := (coreAdd k v none [] now f.core).2,
        mem :=
          match (coreAdd k v none [] now f.core).1 with
          | Except.ok _ => (k, v) :: removeKey k f.mem
          | Except.error _ => f.mem })
  | .del k, now, f =>
    (Out.obool (coreDelete k now f.core).1,
      { core := (coreDelete k now f.core).2, mem := removeKey k f.mem })
  | .pop k, now, f =>
    (Out.oval (corePop k now f.core).1,
      { core := (corePop k now f.core).2, mem := removeKey k f.mem })
  | .incr k d, now, f =>
    (Out.oint (coreIncr k d now f.core).1,
      { core := (coreIncr k d now f.core).2, mem := removeKey k f.mem })
  | .touch k e, now, f =>
    (Out.obool (coreTouch k e now f.core).1,
      { core := (coreTouch k e now f.core).2, mem := f.mem })
  | .clear, _, f =>
    (Out.onat (coreClear f.core).1, { core := (coreClear f.core).2, mem := [] })
  | .volume, now, f => (Out.onat (coreVolume now f.core), f)
  | .scan, now, f => (Out.okeys (coreScan now f.core), f)

/-- Modelled from the spec: the memory-tier coherence invariant (section
3 ownership: the tier holds a weak reference to the value; destroying the
on-disk entry merely invalidates the copy on next access check): every
cached copy agrees with the on-disk entry of its key, when one exists. -/
def MemOK (m : List (String × List Nat)) (c : CoreState) : Prop :=
  ∀ p ∈ m, ∀ q ∈ c.entries, q.1 = p.1 → p.2 = q.2.value

instance memOK_decidable (m : List (String × List Nat)) (c : CoreState) :
    Decidable (MemOK m c) := by
  unfold MemOK
  infer_instance

theorem memOK_nil (c : CoreState) : MemOK [] c := by
  intro p hp
  simp at hp

theorem memOK_shrink {m : List (String × List Nat)} {c : CoreState}
    (k : String) (h : MemOK m c) : MemOK (removeKey k m) c :=
  fun p hp q hq hk => h p (mem_removeKey hp).1 q hq hk

theorem memOK_core_subset {m : List (String × List Nat)} {c c' : CoreState}
    (hc : ∀ q ∈ c'.entries, q ∈ c.entries) (h : MemOK m c) : MemOK m c' :=
  fun p hp q hq hk => h p hp q (hc q hq) hk

/-- Replacing the entry of key `k` (arbitrarily) preserves coherence for a
tier that no longer caches `k`. -/
theorem memOK_key_update {m : List (String × List Nat)} {c c' : CoreState}
    (k : String) (hc : ∀ q ∈ c'.entries, q.1 = k ∨ q ∈ c.entries)
    (h : MemOK m c) : MemOK (removeKey k m) c' := by
  intro p hp q hq hk
  rcases mem_removeKey hp with ⟨hpm, hpk⟩
  rcases hc q hq with h1 | h2
  · exact absurd (hk.symm.trans h1) hpk
  · exact h p hpm q h2 hk

/-- Replacing the entry of key `k` by one with the same value preserves
coherence for the whole tier. -/
theorem memOK_value_preserving {m : List (String × List Nat)}
    {c : CoreState} {k : String} {e e' : Entry}
    (hl : alookup k c.entries = some e) (hv : e'.value = e.value)
    (h : MemOK m c) :
    MemOK m { c with entries := (k, e') :: removeKey k c.entries } := by
  intro p hp q hq hk
  rcases mem_upsert hq with h1 | h2
  · subst h1
    have : p.2 = e.value := h p hp (k, e) (alookup_mem hl) hk
    rw [this, hv]
  · exact h p hp q h2.1 hk

/-- Caching a copy that agrees with the current on-disk entry preserves
coherence. -/
theorem memOK_cons {m : List (String × List Nat)} {c : CoreState}
    {k : String} {v : List Nat}
    (hv : ∀ q ∈ c.entries, q.1 = k → q.2.value = v) (h : MemOK m c) :
    MemOK ((k, v) :: m) c := by
  intro p hp q hq hk
  rcases List.mem_cons.mp hp with h1 | h2
  · subst h1
    exact (hv q hq hk).symm
  · exact h p h2 q hq hk

theorem coreSet_entries (k : String) (v : List Nat) (e : Option Nat)
    (tg : List String) (now : Nat) (c : CoreState) :
    ∀ q ∈ (coreSet k v e tg now c).entries,
      q = (k, mkEntry v e tg now) ∨ (q ∈ c.entries ∧ q.1 ≠ k) :=
  fun _ hq => putEntry_mem hq

theorem coreDelete_subset (k : String) (now : Nat) (c : CoreState) :
    ∀ q ∈ (coreDelete k now c).2.entries, q ∈ c.entries := by
  intro q hq
  unfold coreDelete at hq
  cases hc : alookup k c.entries with
  | none => simp only [hc] at hq; exact hq
  | some e => simp only [hc] at hq; exact (mem_removeKey hq).1

theorem corePop_subset (k : String) (now : Nat) (c : CoreState) :
    ∀ q ∈ (corePop k now c).2.entries, q ∈ c.entries := by
  intro q hq
  unfold corePop at hq
  cases hc : alookup k c.entries with
  | none => simp only [hc] at hq; exact hq
  | some e =>
    simp only [hc] at hq
    by_cases hl : e.live now
    · rw [if_pos hl] at hq
      exact (mem_removeKey hq).1
    · rw [if_neg hl] at hq
      exact (mem_removeKey hq).1

theorem coreIncr_entries (k : String) (d : Int) (now : Nat) (c : CoreState) :
    ∀ q ∈ (coreIncr k d now c).2.entries, q.1 = k ∨ q ∈ c.entries := by
  intro q hq
  unfold coreIncr at hq
  cases hc : alookup k c.entries with
  | none =>
    simp only [hc] at hq
    rcases putEntry_mem hq with h1 | h2
    · left; rw [h1]
    · right; exact h2.1
  | some e =>
    simp only [hc] at hq
    by_cases hl : e.live now
    · rw [if_pos hl] at hq
      by_cases hlen : e.value.length = 8
      · rw [if_pos hlen] at hq
        rcases putEntry_mem hq with h1 | h2
        · left; rw [h1]
        · right; exact h2.1
      · rw [if_neg hlen] at hq
        right; exact hq
    · rw [if_neg hl] at hq
      rcases putEntry_mem hq with h1 | h2
      · left; rw [h1]
      · right; exact h2.1

/-- One facade operation behaves, through a coherent memory tier, exactly
as the disk-only semantics: same observable output, same resulting core
state, and the tier stays coherent. -/
theorem facade_step (op : Op) (now : Nat) (c : CoreState)
    (m : List (String × List Nat)) (h : MemOK m c) :
    (runFacade op now ⟨c, m⟩).1 = (runCore op now c).1 ∧
    (runFacade op now ⟨c, m⟩).2.core = (runCore op now c).2 ∧
    MemOK (runFacade op now ⟨c, m⟩).2.mem (runFacade op now ⟨c, m⟩).2.core := by
  cases op with
  | get k =>
    cases hm : alookup k m with
    | some v =>
      cases hc : alookup k c.entries with
      | some e =>
        by_cases hlive : e.live now
        · have hv : v = e.value :=
            h (k, v) (alookup_mem hm) (k, e) (alookup_mem hc) rfl
          refine ⟨?_, ?_, ?_⟩
          · simp [runFacade, runCore, coreGet, hm, hc, hlive, hv]
          · simp [runFacade, runCore, coreGet, hm, hc, hlive]
          · have hg := memOK_value_preserving hc
              (rfl : (touchAccess e now).value = e.value) h
            simpa [runFacade, hm, hc, hlive] using hg
        · have hlf : e.live now = false := by simpa using hlive
          refine ⟨?_, ?_, ?_⟩
          · simp [runFacade, runCore, coreGet, hm, hc, hlf]
          · simp [runFacade, runCore, coreGet, hm, hc, hlf]
          · have hg : MemOK (removeKey k m)
                { c with entries := removeKey k c.entries } :=
              memOK_shrink k
                (memOK_core_subset (fun q hq => (mem_removeKey hq).1) h)
            simpa [runFacade, hm, hc, hlf] using hg
      | none =>
        refine ⟨?_, ?_, ?_⟩
        · simp [runFacade, runCore, coreGet, hm, hc]
        · simp [runFacade, runCore, coreGet, hm, hc]
        · have hg : MemOK (removeKey k m) c := memOK_shrink k h
          simpa [runFacade, hm, hc] using hg
    | none =>
      cases hc : alookup k c.entries with
      | some e =>
        by_cases hlive : e.live now
        · refine ⟨?_, ?_, ?_⟩
          · simp [runFacade, runCore, coreGet, hm, hc, hlive]
          · simp [runFacade, runCore, coreGet, hm, hc, hlive]
          · have hco : MemOK m
                { c with entries := (k, touchAccess e now) :: removeKey k c.entries } :=
              memOK_value_preserving hc
                (rfl : (touchAccess e now).value = e.value) h
            have hg : MemOK ((k, e.value) :: m)
                { c with entries := (k, touchAccess e now) :: removeKey k c.entries } := by
              apply memOK_cons ?_ hco
              intro q hq hk
              rcases mem_upsert hq with h1 | h2
              · rw [h1]; rfl
              · exact absurd hk h2.2
            simpa [runFacade, coreGet, hm, hc, hlive] using hg
        · have hlf : e.live now = false := by simpa using hlive
          refine ⟨?_, ?_, ?_⟩
          · simp [runFacade, runCore, coreGet, hm, hc, hlf]
          · simp [runFacade, runCore, coreGet, hm, hc, hlf]
          · have hg : MemOK m { c with entries := removeKey k c.entries } :=
              memOK_core_subset (fun q hq => (mem_removeKey hq).1) h
            simpa [runFacade, coreGet, hm, hc, hlf] using hg
      | none =>
        refine ⟨?_, ?_, ?_⟩
        · simp [runFacade, runCore, coreGet, hm, hc]
        · simp [runFacade, runCore, coreGet, hm, hc]
        · simpa [runFacade, coreGet, hm, hc] using h
  | set k v e tg =>
    refine ⟨rfl, rfl, ?_⟩
    have hmem : MemOK (removeKey k m) (coreSet k v e tg now c) := by
      apply memOK_key_update k ?_ h
      intro q hq
      rcases coreSet_entries k v e tg now c q hq with h1 | h2
      · left; rw [h1]
      · right; exact h2.1
    have hg : MemOK ((k, v) :: removeKey k m) (coreSet k v e tg now c) := by
      apply memOK_cons ?_ hmem
      intro q hq hk
      rcases coreSet_entries k v e tg now c q hq with h1 | h2
      · rw [h1]; rfl
      · exact absurd hk h2.2
    simpa [runFacade] using hg
  | add k v =>
    refine ⟨rfl, rfl, ?_⟩
    cases hc : alookup k c.entries with
    | some e =>
      by_cases hlive : e.live now
      · have hg : MemOK m c := h
        simpa [runFacade, coreAdd, hc, hlive] using hg
      · have hlf : e.live now = false := by simpa using hlive
        have hmem : MemOK (removeKey k m) (coreSet k v none [] now c) := by
          apply memOK_key_update k ?_ h
          intro q hq
          rcases coreSet_entries k v none [] now c q hq with h1 | h2
          · left; rw [h1]
          · right; exact h2.1
        have hg : MemOK ((k, v) :: removeKey k m)
            (coreSet k v none [] now c) := by
          apply memOK_cons ?_ hmem
          intro q hq hk
          rcases coreSet_entries k v none [] now c q hq with h1 | h2
          · rw [h1]; rfl
          · exact absurd hk h2.2
        simpa [runFacade, coreAdd, hc, hlf] using hg
    | none =>
      have hmem : MemOK (removeKey k m) (coreSet k v none [] now c) := by
        apply memOK_key_update k ?_ h
        intro q hq
        rcases coreSet_entries k v none [] now c q hq with h1 | h2
        · left; rw [h1]
        · right; exact h2.1
      have hg : MemOK ((k, v) :: removeKey k m)
          (coreSet k v none [] now c) := by
        apply memOK_cons ?_ hmem
        intro q hq hk
        rcases coreSet_entries k v none [] now c q hq with h1 | h2
        · rw [h1]; rfl
        · exact absurd hk h2.2
      simpa [runFacade, coreAdd, hc] using hg
  | del k =>
    refine ⟨rfl, rfl, ?_⟩
    have hg : MemOK (removeKey k m) (coreDelete k now c).2 :=
      memOK_shrink k (memOK_core_subset (coreDelete_subset k now c) h)
    simpa [runFacade] using hg
  | pop k =>
    refine ⟨rfl, rfl, ?_⟩
    have hg : MemOK (removeKey k m) (corePop k now c).2 :=
      memOK_shrink k (memOK_core_subset (corePop_subset k now c) h)
    simpa [runFacade] using hg
  | incr k d =>
    refine ⟨rfl, rfl, ?_⟩
    have hg : MemOK (removeKey k m) (coreIncr k d now c).2 :=
      memOK_key_update k (coreIncr_entries k d now c) h
    simpa [runFacade] using hg
  | touch k e =>
    refine ⟨rfl, rfl, ?_⟩
    cases hc : alookup k c.entries with
    | some e0 =>
      by_cases hlive : e0.live now
      · have hg : MemOK m
            { c with entries :=
              (k, { e0 with expires_at := e }) :: removeKey k c.entries } :=
          memOK_value_preserving hc rfl h
        simpa [runFacade, coreTouch, hc, hlive] using hg
      · have hlf : e0.live now = false := by simpa using hlive
        have hg : MemOK m { c with entries := removeKey k c.entries } :=
          memOK_core_subset (fun q hq => (mem_removeKey hq).1) h
        simpa [runFacade, coreTouch, hc, hlf] using hg
    | none =>
      simpa [runFacade, coreTouch, hc] using h
  | clear =>
    exact ⟨rfl, rfl, memOK_nil _⟩
  | volume =>
    exact ⟨rfl, rfl, h⟩
  | scan =>
    exact ⟨rfl, rfl, h⟩

/-- Run a timed operation sequence against the disk-only semantics. -/
def runCoreSeq : List (Nat × Op) → CoreState → List Out × CoreState
  | [], s => ([], s)
  | (t, op) :: rest, s =>
    let r := runCore op t s
    let rr := runCoreSeq rest r.2
    (r.1 :: rr.1, rr.2)

/-- Run a timed operation sequence against the facade with memory tier. -/
def runFacadeSeq : List (Nat × Op) → FState → List Out × FState
  | [], f => ([], f)
  | (t, op) :: rest, f =>
    let r := runFacade op t f
    let rr := runFacadeSeq rest r.2
    (r.1 :: rr.1, rr.2)

/-- Any run through a coherent memory tier produces the same outputs and
the same final core state as the disk-only run. -/
theorem facade_refines_core : ∀ (ops : List (Nat × Op)) (c : CoreState)
    (m : List (String × List Nat)), MemOK m c →
    (runFacadeSeq ops ⟨c, m⟩).1 = (runCoreSeq ops c).1 ∧
    (runFacadeSeq ops ⟨c, m⟩).2.core = (runCoreSeq ops c).2 := by
  intro ops
  induction ops with
  | nil => intro c m h; exact ⟨rfl, rfl⟩
  | cons p rest ih =>
    intro c m h
    obtain ⟨t, op⟩ := p
    have hs := facade_step op t c m h
    have hrec := ih (runFacade op t ⟨c, m⟩).2.core
      (runFacade op t ⟨c, m⟩).2.mem hs.2.2
    simp only [runFacadeSeq, runCoreSeq]
    constructor
    · rw [hs.1]
      rw [List.cons.injEq]
      refine ⟨rfl, ?_⟩
      rw [← hs.2.1]
      exact hrec.1
    · rw [← hs.2.1]
      exact hrec.2

/-- A demonstration core state with two entries, the second of which
expires at time 4. -/
def demoCore : CoreState :=
  { maxSize := 100, maxEntries := 10,
    entries := [("x", mkEntry [1, 2] none [] 0),
      ("y", mkEntry [3] (some 4) [] 0)] }

/-- A populated memory tier coherent with `demoCore`. -/
def demoMem : List (String × List Nat) := [("x", [1, 2])]

/-- A demonstration operation sequence exercising tier hits, misses,
expiry, deletion, scan, volume and clear. -/
def demoOps : List (Nat × Op) :=
  [(1, Op.get "x"), (2, Op.set "z" [7] none []), (3, Op.get "z"),
    (5, Op.get "y"), (6, Op.del "x"), (7, Op.get "x"), (8, Op.scan),
    (9, Op.volume), (10, Op.clear), (11, Op.scan)]

/-- C3: the memory tier is observationally transparent: for every sequence
of facade operations, a run with a populated (coherent) memory tier
produces the same observable result from every operation as the run with a
completely empty memory tier, which itself equals the disk-only
(tier-disabled) run; only latency may differ. -/
theorem memory_tier_transparent (ops : List (Nat × Op)) (c : CoreState)
    (m : List (String × List Nat)) (h : MemOK m c) :
    (runFacadeSeq ops ⟨c, m⟩).1 = (runFacadeSeq ops ⟨c, []⟩).1 ∧
    (runFacadeSeq ops ⟨c, m⟩).1 = (runCoreSeq ops c).1 := by
  have h1 := facade_refines_core ops c m h
  have h2 := facade_refines_core ops c [] (memOK_nil c)
  exact ⟨h1.1.trans h2.1.symm, h1.1⟩

/-- Witness for C3 at a concrete input: a populated coherent tier gives
the same outputs as the empty tier over a ten-operation run. -/
theorem memory_tier_transparent_witness :
    MemOK demoMem demoCore ∧
    (runFacadeSeq demoOps ⟨demoCore, demoMem⟩).1 =
      (runFacadeSeq demoOps ⟨demoCore, []⟩).1 :=
  ⟨by decide,
    (memory_tier_transparent demoOps demoCore demoMem (by decide)).1⟩

end DCache
